import Mathlib

/-!
A shallow embedding of the MySQL upsert layer of `db_manager.py`
(class `IbovespaDBManager`).  Parameter values are modelled by `Val`,
the table `Ft_Ibovespa` by a list of rows keyed by day-precision dates,
and the driver by explicit state passing.  A failure oracle `fail`
injects driver-level batch errors by call index, standing for the
`mysql.connector.Error` exceptions the driver may raise.
-/

/-- A SQL parameter value: Python `None`, the float NaN sentinel, a
day-precision calendar date, or an ordinary numeric (fixed-point,
represented as a scaled integer). -/
inductive Val where
  | vnull
  | vnan
  | vdate (day : Nat)
  | vnum (q : Int)
  deriving DecidableEq

/-- `nan_to_none` (db_manager.py lines 59-71): a value for which
`pd.isna` holds (NaN or None) becomes the SQL NULL marker `vnull`;
every other value is returned unchanged. -/
def nan_to_none : Val → Val
  | .vnan => .vnull
  | .vnull => .vnull
  | v => v

/-- A value counts as missing when it is the NaN sentinel or absent
(`None`); this is the condition tested on line 69 of db_manager.py. -/
def isMissing : Val → Bool
  | .vnan => true
  | .vnull => true
  | _ => false

/-- The raw `Date` cell of an input row: an ISO string naming a day, a
timestamp carrying a day plus a time of day, or an already
day-precision date (lines 374-377 of db_manager.py accept all three). -/
inductive RawDate where
  | str (day : Nat)
  | ts (day : Nat) (timeOfDay : Nat)
  | d (day : Nat)
  deriving DecidableEq

/-- Date normalization of db_manager.py lines 374-379: a string is
parsed with `strptime(..).date()`, a timestamp is truncated with
`.date()`, and a plain date is kept — in every case the canonical
day-precision day. -/
def normDate : RawDate → Nat
  | .str day => day
  | .ts day _ => day
  | .d day => day

/-- One input row of the DataFrame handed to `insert_ibovespa_data`:
the raw date plus the OHLCV, calendar, return and moving-average
columns.  A column absent from the frame (fetched with `row.get(_,
None)`) is represented by `vnull`. -/
structure Record where
  rdate : RawDate
  open_ : Val
  high : Val
  low : Val
  close : Val
  volume : Val
  year : Val
  month : Val
  day : Val
  rentabilidade : Val
  media_movel_7d : Val
  media_movel_14d : Val
  media_movel_21d : Val
  media_movel_50d : Val
  media_movel_200d : Val
  deriving DecidableEq

/-- The canonical day-precision date of a record. -/
def recDate (r : Record) : Nat := normDate r.rdate

/-- The fourteen non-key columns of a record, in the order both the
INSERT and the UPDATE statement bind them (lines 394-406). -/
def fieldVals (r : Record) : List Val :=
  [r.open_, r.high, r.low, r.close, r.volume, r.year, r.month, r.day,
   r.rentabilidade, r.media_movel_7d, r.media_movel_14d, r.media_movel_21d,
   r.media_movel_50d, r.media_movel_200d]

/-- The parameter tuple queued for an INSERT (lines 402-406): the date
first, then the fourteen field columns. -/
def insertTuple (r : Record) : List Val := Val.vdate (recDate r) :: fieldVals r

/-- The parameter tuple queued for an UPDATE (lines 394-399): the
fourteen field columns followed by the date, which the statement uses
as the `WHERE date = %s` match key. -/
def updateTuple (r : Record) : List Val := fieldVals r ++ [Val.vdate (recDate r)]

/-- The classification loop of `insert_ibovespa_data` (lines 372-406):
records whose normalized date is in the existing-date snapshot are
appended to the update queue, the rest to the insert queue, preserving
input order.  Returns (insert queue, update queue). -/
def partitionRecords (existing : Finset Nat) : List Record → List (List Val) × List (List Val)
  | [] => ([], [])
  | r :: rs =>
    let p := partitionRecords existing rs
    if recDate r ∈ existing then (p.1, updateTuple r :: p.2)
    else (insertTuple r :: p.1, p.2)

/-- One persisted row of `Ft_Ibovespa`: its date key and its stored
field columns. -/
abbrev Row := Nat × List Val

/-- The connection-level state: the table contents plus the number of
driver batch executions performed so far (used to index the failure
oracle). -/
structure DBState where
  store : List Row
  callsDone : Nat
  deriving DecidableEq

/-- The set of date keys currently persisted, i.e. what a healthy
`SELECT date FROM Ft_Ibovespa` reports. -/
def storeDates (store : List Row) : Finset Nat := (store.map Prod.fst).toFinset

/-- The two statement shapes `insert_ibovespa_data` submits. -/
inductive Stmt where
  | insertStmt
  | updateStmt
  deriving DecidableEq

/-- Effect of one INSERT parameter tuple: the tuple's leading date must
not collide with the unique index `idx_date`; on success the row is
appended.  A collision (or a malformed tuple) is a driver error. -/
def applyInsert (store : List Row) (tup : List Val) : Option (List Row) :=
  match tup with
  | .vdate d :: fields =>
    if d ∈ store.map Prod.fst then none
    else some (store ++ [(d, fields)])
  | _ => none

/-- Effect of one UPDATE parameter tuple (fields followed by the match
date): every row with that date has its field columns overwritten, and
the affected-row count is the number of matching rows. -/
def applyUpdate (store : List Row) (tup : List Val) : Option (List Row × Nat) :=
  match tup.getLast? with
  | some (.vdate d) =>
    some (store.map fun row => if row.1 = d then (row.1, tup.dropLast) else row,
          (store.map Prod.fst).count d)
  | _ => none

/-- Effect of one parameter tuple under a given statement, returning
the new table and the rows affected by that tuple. -/
def applyTuple : Stmt → List Row → List Val → Option (List Row × Nat)
  | .insertStmt, store, tup => (applyInsert store tup).map fun s => (s, 1)
  | .updateStmt, store, tup => applyUpdate store tup

/-- Effect of `cursor.executemany`: the tuples are applied in order and
the affected-row counts summed; any tuple error fails the whole
statement (so the enclosing transaction will be rolled back). -/
def applyBatch (stmt : Stmt) : List Row → List (List Val) → Option (List Row × Nat)
  | store, [] => some (store, 0)
  | store, t :: ts =>
    match applyTuple stmt store t with
    | none => none
    | some (s1, n1) =>
      match applyBatch stmt s1 ts with
      | none => none
      | some (s2, n2) => some (s2, n1 + n2)

/-- The per-tuple sanitization of db_manager.py lines 232-235: every
parameter goes through `nan_to_none` before binding. -/
def cleanTuple (t : List Val) : List Val := t.map nan_to_none

/-- `execute_many` (db_manager.py lines 216-243).  An empty parameter
list returns 0 at once, before any driver interaction (line 227-228).
Otherwise the batch's parameters are sanitized, the statement is run
across them as one transaction and committed, and the affected-row
count returned.  A driver error — injected by the oracle `fail` at the
current call index, or a duplicate-key collision — rolls the whole
transaction back (the store keeps its pre-batch contents) and is
re-raised, modelled as the `Except.error` carrying the rolled-back
state. -/
def execute_many (fail : Nat → Bool) (st : DBState) (stmt : Stmt)
    (batch : List (List Val)) : Except DBState (DBState × Nat) :=
  if batch.isEmpty then .ok (st, 0)
  else if fail st.callsDone then .error { st with callsDone := st.callsDone + 1 }
  else
    match applyBatch stmt st.store (batch.map cleanTuple) with
    | none => .error { st with callsDone := st.callsDone + 1 }
    | some (s', n) => .ok ({ store := s', callsDone := st.callsDone + 1 }, n)

/-- The batch loops of `insert_ibovespa_data` (lines 408-452): each
batch is submitted through `execute_many` in queue order, affected-row
counts are accumulated, and the first batch error aborts the loop and
propagates. -/
def runBatches (fail : Nat → Bool) (stmt : Stmt) :
    DBState → Nat → List (List (List Val)) → Except DBState (DBState × Nat)
  | st, acc, [] => .ok (st, acc)
  | st, acc, b :: bs =>
    match execute_many fail st stmt b with
    | .error e => .error e
    | .ok (st', n) => runBatches fail stmt st' (acc + n) bs

/-- The slicing loop `for i in range(0, len(queue), batch_size)` with
`queue[i:i+batch_size]` (lines 410-411 and 432-433): consecutive
chunks of at most `bs` elements, in queue order. -/
def chunkList (bs : Nat) : List α → List (List α)
  | [] => []
  | a :: l => (a :: l.take (bs - 1)) :: chunkList bs (l.drop (bs - 1))
termination_by l => l.length
decreasing_by
  simp only [List.length_drop, List.length_cons]
  omega

/-- `insert_ibovespa_data` (db_manager.py lines 346-461).  An empty
DataFrame returns 0 immediately (lines 357-359).  Otherwise the
existing-date snapshot is read once, the records are partitioned into
insert and update queues, each queue is chunked and submitted batch by
batch (inserts first, then updates), and on success the per-phase
totals are returned (the Python function returns their sum).  A batch
error propagates out after that batch's rollback; previously committed
batches stand. -/
def insert_ibovespa_data (fail : Nat → Bool) (st : DBState) (data : List Record)
    (batch_size : Nat) : Except DBState (DBState × Nat × Nat) :=
  if data.isEmpty then .ok (st, 0, 0)
  else
    match runBatches fail .insertStmt st 0
        (chunkList batch_size (partitionRecords (storeDates st.store) data).1) with
    | .error e => .error e
    | .ok (st1, inserted) =>
      match runBatches fail .updateStmt st1 0
          (chunkList batch_size (partitionRecords (storeDates st.store) data).2) with
      | .error e => .error e
      | .ok (st2, updated) => .ok (st2, inserted, updated)

/-- `get_existing_dates` (db_manager.py lines 329-344), over the result
of `SELECT date FROM Ft_Ibovespa`: `Except.error` stands for the query
raising, `Except.ok rows` for the fetched date column.  A non-empty
result is turned into the set comprehension `{row[0] for row in
result}`; an empty result or an error yields the empty set. -/
def get_existing_dates (res : Except Unit (List Nat)) : Finset Nat :=
  match res with
  | .error _ => ∅
  | .ok rows => if rows.isEmpty then ∅ else rows.toFinset

/-- The row persisted for a freshly inserted record: its date key and
its sanitized field columns. -/
def insRow (r : Record) : Row := (recDate r, (fieldVals r).map nan_to_none)

/-- Outcome of `connect`: success at some attempt index, the re-raise
of the last `mysql.connector.Error` (line 168, `raise last_error`), or
a Python `ConnectionError` with an optional attached underlying driver
error — the code's own `ConnectionError` branch attaches none. -/
inductive ConnectResult where
  | connected (attempt : Nat)
  | mysqlError (e : Nat)
  | connError (cause : Option Nat)
  deriving DecidableEq

/-- The retry loop of `connect` (lines 144-168): `attempt` is the
current attempt index, `remaining` how many loop iterations are left
(`max_retries - attempt`), `last` the last captured driver error.  The
driver oracle `drv` says whether attempt `i` connects (`Except.ok`) or
raises a driver error (`Except.error e`).  When the loop exhausts, the
last driver error is re-raised if one was captured, else the generic
`ConnectionError` with no cause. -/
def connectAux (drv : Nat → Except Nat Unit) : Nat → Nat → Option Nat → ConnectResult
  | _, 0, some e => .mysqlError e
  | _, 0, none => .connError none
  | attempt, r + 1, last =>
    match drv attempt with
    | .ok _ => .connected attempt
    | .error e =>
      let _ := last
      connectAux drv (attempt + 1) r (some e)

/-- `connect(max_retries, retry_delay)` (db_manager.py lines 136-168).
The `while attempt < max_retries` loop runs `max 0 max_retries` times,
starting with no captured error.  The fixed sleep between attempts has
no observable effect in this embedding and is not modelled. -/
def connect (drv : Nat → Except Nat Unit) (max_retries : Int) : ConnectResult :=
  connectAux drv 0 max_retries.toNat none

/-- A record with every non-key column null, dated `d`; used as a
concrete test input. -/
def mkNullRec (d : Nat) : Record :=
  { rdate := .d d, open_ := .vnull, high := .vnull, low := .vnull, close := .vnull,
    volume := .vnull, year := .vnull, month := .vnull, day := .vnull,
    rentabilidade := .vnull, media_movel_7d := .vnull, media_movel_14d := .vnull,
    media_movel_21d := .vnull, media_movel_50d := .vnull, media_movel_200d := .vnull }

/-! ### Basic lemmas about the embedded operations -/

theorem nan_to_none_vdate (d : Nat) : nan_to_none (.vdate d) = .vdate d := rfl

theorem nan_to_none_ne_vnan (v : Val) : nan_to_none v ≠ .vnan := by
  cases v <;> simp [nan_to_none]

theorem nan_to_none_eq_ite (v : Val) :
    nan_to_none v = if isMissing v then Val.vnull else v := by
  cases v <;> simp [nan_to_none, isMissing]

theorem cleanTuple_insertTuple (r : Record) :
    cleanTuple (insertTuple r) =
      Val.vdate (recDate r) :: (fieldVals r).map nan_to_none := by
  simp [cleanTuple, insertTuple, nan_to_none_vdate]

theorem cleanTuple_updateTuple (r : Record) :
    cleanTuple (updateTuple r) =
      (fieldVals r).map nan_to_none ++ [Val.vdate (recDate r)] := by
  simp [cleanTuple, updateTuple, nan_to_none_vdate]

/-! ### C10, C6, C8, C1 -/

/-- C10: `execute_many` called with an empty parameter-set list returns
0 immediately: no statement is executed, nothing is committed, the
store and the driver call counter are untouched, for any failure
oracle, state and statement. -/
theorem execute_many_empty_noop (fail : Nat → Bool) (st : DBState) (stmt : Stmt) :
    execute_many fail st stmt [] = .ok (st, 0) := rfl

/-- C6: `insert_ibovespa_data` on an empty input sequence returns 0
processed records (0 inserted, 0 updated) and leaves the state —
store contents and driver call counter alike — exactly as it was: no
insert or update statement is submitted. -/
theorem empty_input_noop (fail : Nat → Bool) (st : DBState) (bs : Nat) :
    insert_ibovespa_data fail st [] bs = .ok (st, 0, 0) := rfl

/-- C8: `get_existing_dates` is a total function into sets of dates —
it never yields null and never propagates an exception.  On a healthy
read it returns exactly the set of date values present in the store;
on an empty table or on a query error it returns the empty set. -/
theorem existing_dates_total :
    (∀ store : List Row, get_existing_dates (.ok (store.map Prod.fst)) = storeDates store) ∧
    get_existing_dates (.ok []) = ∅ ∧
    (∀ e : Unit, get_existing_dates (.error e) = ∅) := by
  refine ⟨fun store => ?_, rfl, fun e => rfl⟩
  by_cases h : store.map Prod.fst = []
  · simp [get_existing_dates, storeDates, h]
  · simp [get_existing_dates, storeDates, h]

/-- C1: partition correctness of the reconciler's classification step.
For every key-inventory snapshot and record sequence, the update queue
is exactly the records whose canonical date is in the snapshot, in
input order, each as its fields followed by its date; the insert queue
is exactly the records whose date is not in the snapshot, each as its
date followed by its fields; hence exactly as many records route to
update as have their date in the snapshot, and the rest to insert. -/
theorem partition_correct (existing : Finset Nat) (recs : List Record) :
    (partitionRecords existing recs).1 =
      (recs.filter fun r => decide (recDate r ∉ existing)).map insertTuple ∧
    (partitionRecords existing recs).2 =
      (recs.filter fun r => decide (recDate r ∈ existing)).map updateTuple ∧
    (partitionRecords existing recs).1.length =
      recs.countP (fun r => decide (recDate r ∉ existing)) ∧
    (partitionRecords existing recs).2.length =
      recs.countP (fun r => decide (recDate r ∈ existing)) := by
  have h : (partitionRecords existing recs).1 =
      (recs.filter fun r => decide (recDate r ∉ existing)).map insertTuple ∧
      (partitionRecords existing recs).2 =
      (recs.filter fun r => decide (recDate r ∈ existing)).map updateTuple := by
    induction recs with
    | nil => exact ⟨rfl, rfl⟩
    | cons r rs ih =>
      by_cases hr : recDate r ∈ existing
      · simp [partitionRecords, hr, List.filter_cons, ih.1, ih.2]
      · simp [partitionRecords, hr, List.filter_cons, ih.1, ih.2]
  refine ⟨h.1, h.2, ?_, ?_⟩
  · rw [h.1, List.length_map, List.countP_eq_length_filter]
  · rw [h.2, List.length_map, List.countP_eq_length_filter]

/-! ### C5 and C9: the connect retry contract -/

theorem connectAux_all_fail (drv : Nat → Except Nat Unit) (e : Nat) :
    ∀ (r attempt : Nat) (last : Option Nat), 0 < r →
      (∀ i, i < r → ∃ ei, drv (attempt + i) = .error ei) →
      drv (attempt + r - 1) = .error e →
      connectAux drv attempt r last = .mysqlError e := by
  intro r
  induction r with
  | zero => intro attempt last h; omega
  | succ r ih =>
    intro attempt last _ hfail hlast
    obtain ⟨e0, he0⟩ := hfail 0 (Nat.succ_pos r)
    rw [Nat.add_zero] at he0
    cases r with
    | zero =>
      have : attempt + 1 - 1 = attempt := by omega
      rw [this] at hlast
      rw [hlast] at he0
      simp only [connectAux, hlast]
    | succ r' =>
      simp only [connectAux, he0]
      apply ih (attempt + 1) (some e0) (Nat.succ_pos r')
      · intro i hi
        obtain ⟨ei, hei⟩ := hfail (i + 1) (by omega)
        exact ⟨ei, by rw [← hei]; congr 1; omega⟩
      · rw [← hlast]; congr 1; omega

/-- C5 counterexample: with a driver that fails every attempt with
error 7 and `max_retries = 3`, `connect` re-raises the last underlying
driver error itself (`raise last_error`, line 168); it does not raise a
`ConnectionError` carrying that error, contrary to the claim. -/
theorem connect_error_type_cex :
    connect (fun _ => .error 7) 3 = .mysqlError 7 ∧
    ¬ ∃ c : Option Nat, connect (fun _ => .error 7) 3 = .connError c := by
  constructor
  · rfl
  · rintro ⟨c, h⟩
    rw [show connect (fun _ => .error 7) 3 = .mysqlError 7 from rfl] at h
    exact ConnectResult.noConfusion h

/-- C5 amended: `connect(max_retries, retry_delay)` attempts to
establish a connection, on failure retries up to `max_retries` attempts
in total with a fixed delay between attempts, and after exhausting all
retries fails by re-raising the last underlying driver error itself
(not a `ConnectionError` wrapping it). -/
theorem connect_exhausted_raises_last_driver_error
    (drv : Nat → Except Nat Unit) (n : Int) (e : Nat) (hn : 0 < n)
    (hfail : ∀ i : Nat, i < n.toNat → ∃ ei, drv i = .error ei)
    (hlast : drv (n.toNat - 1) = .error e) :
    connect drv n = .mysqlError e := by
  have hn' : 0 < n.toNat := by omega
  unfold connect
  apply connectAux_all_fail drv e n.toNat 0 none hn'
  · intro i hi
    simpa using hfail i hi
  · simpa using hlast

theorem connect_exhausted_witness :
    (0 : Int) < 3 ∧ connect (fun _ => .error 7) 3 = .mysqlError 7 := by
  refine ⟨by norm_num, ?_⟩
  exact connect_exhausted_raises_last_driver_error (fun _ => .error 7) 3 7
    (by norm_num) (fun i _ => ⟨7, rfl⟩) rfl

/-- C9: when `max_retries` is at most 0 the `while attempt <
max_retries` loop body never runs, so no connection attempt is made
(the outcome is the same for every driver oracle) and the generic
`ConnectionError` with no attached underlying driver error is raised,
since no last error was captured. -/
theorem connect_nonpositive_retries (drv drv' : Nat → Except Nat Unit)
    (n : Int) (hn : n ≤ 0) :
    connect drv n = .connError none ∧ connect drv n = connect drv' n := by
  have h : n.toNat = 0 := by omega
  unfold connect
  rw [h]
  exact ⟨rfl, rfl⟩

theorem connect_nonpositive_retries_witness :
    (-1 : Int) ≤ 0 ∧ connect (fun _ => .ok ()) (-1) = .connError none := by
  refine ⟨by norm_num, ?_⟩
  exact (connect_nonpositive_retries (fun _ => .ok ()) (fun _ => .error 5) (-1)
    (by norm_num)).1

/-! ### C7: null normalization -/

/-- C7: every parameter bound by `execute_query` or `execute_many` goes
through `nan_to_none`, which maps a missing value (the NaN sentinel or
an absent value) to the null marker and passes every other value
through unchanged; in particular a record whose `rentabilidade`
(return_pct) is the NaN sentinel is persisted with null in that column
— position 8 of the stored fields — and no stored column ever holds the
sentinel. -/
theorem null_normalization (v : Val) (r : Record) (fail : Nat → Bool) (st : DBState)
    (hfail : fail st.callsDone = false)
    (hfresh : recDate r ∉ st.store.map Prod.fst)
    (hr : r.rentabilidade = .vnan) :
    nan_to_none v = (if isMissing v then Val.vnull else v) ∧
    ∃ st', execute_many fail st .insertStmt [insertTuple r] = .ok (st', 1) ∧
      st'.store = st.store ++ [(recDate r, (fieldVals r).map nan_to_none)] ∧
      ((fieldVals r).map nan_to_none).get? 8 = some Val.vnull ∧
      Val.vnan ∉ (fieldVals r).map nan_to_none := by
  refine ⟨nan_to_none_eq_ite v, ?_⟩
  refine ⟨⟨st.store ++ [(recDate r, (fieldVals r).map nan_to_none)], st.callsDone + 1⟩,
    ?_, rfl, ?_, ?_⟩
  · simp [execute_many, hfail, applyBatch, applyTuple, cleanTuple_insertTuple,
      applyInsert, hfresh]
  · show (List.map nan_to_none [r.open_, r.high, r.low, r.close, r.volume, r.year,
      r.month, r.day, r.rentabilidade, r.media_movel_7d, r.media_movel_14d,
      r.media_movel_21d, r.media_movel_50d, r.media_movel_200d]).get? 8 = some Val.vnull
    rw [hr]
    rfl
  · intro h
    obtain ⟨x, -, hx⟩ := List.mem_map.mp h
    exact nan_to_none_ne_vnan x hx

theorem null_normalization_witness :
    (fun _ : Nat => false) (DBState.mk [] 0).callsDone = false ∧
    recDate { mkNullRec 5 with rentabilidade := Val.vnan } ∉
      (DBState.mk [] 0).store.map Prod.fst ∧
    ({ mkNullRec 5 with rentabilidade := Val.vnan } : Record).rentabilidade = .vnan ∧
    ∃ st', execute_many (fun _ => false) (DBState.mk [] 0) .insertStmt
        [insertTuple { mkNullRec 5 with rentabilidade := Val.vnan }] = .ok (st', 1) ∧
      ((fieldVals { mkNullRec 5 with rentabilidade := Val.vnan }).map nan_to_none).get? 8 =
        some Val.vnull := by
  refine ⟨rfl, by simp, rfl, ?_⟩
  obtain ⟨st', h1, -, h3, -⟩ :=
    (null_normalization (Val.vnum 3) { mkNullRec 5 with rentabilidade := Val.vnan }
      (fun _ => false) (DBState.mk [] 0) rfl (by simp) rfl).2
  exact ⟨st', h1, h3⟩

/-! ### Chunking lemmas -/

theorem chunkList_cons (bs : Nat) (hbs : 0 < bs) (a : α) (l : List α) :
    chunkList bs (a :: l) = ((a :: l).take bs) :: chunkList bs ((a :: l).drop bs) := by
  obtain ⟨k, rfl⟩ : ∃ k, bs = k + 1 := ⟨bs - 1, by omega⟩
  simp [chunkList, List.take_succ_cons, List.drop_succ_cons]

theorem chunkList_of_ne_nil (bs : Nat) (hbs : 0 < bs) (l : List α) (hl : l ≠ []) :
    chunkList bs l = l.take bs :: chunkList bs (l.drop bs) := by
  cases l with
  | nil => exact absurd rfl hl
  | cons a t => exact chunkList_cons bs hbs a t

theorem chunkList_sizes (bs : Nat) (hbs : 0 < bs) :
    ∀ (n : Nat) (l : List α), l.length ≤ n →
      ∀ c ∈ chunkList bs l, 0 < c.length ∧ c.length ≤ bs := by
  intro n
  induction n with
  | zero =>
    intro l hl c hc
    have : l = [] := List.eq_nil_of_length_eq_zero (by omega)
    subst this
    simp [chunkList] at hc
  | succ n ih =>
    intro l hl c hc
    cases l with
    | nil => simp [chunkList] at hc
    | cons a t =>
      rw [show chunkList bs (a :: t) = (a :: t.take (bs - 1)) :: chunkList bs (t.drop (bs - 1)) from by simp [chunkList]] at hc
      rcases List.mem_cons.mp hc with h | h
      · subst h
        constructor
        · simp
        · simp only [List.length_cons, List.length_take]
          omega
      · exact ih (t.drop (bs - 1)) (by simp only [List.length_drop]; simp at hl; omega) c h

theorem chunkList_flatten (bs : Nat) :
    ∀ (n : Nat) (l : List α), l.length ≤ n → (chunkList bs l).flatten = l := by
  intro n
  induction n with
  | zero =>
    intro l hl
    have : l = [] := List.eq_nil_of_length_eq_zero (by omega)
    subst this
    simp [chunkList]
  | succ n ih =>
    intro l hl
    cases l with
    | nil => simp [chunkList]
    | cons a t =>
      rw [show chunkList bs (a :: t) = (a :: t.take (bs - 1)) :: chunkList bs (t.drop (bs - 1)) from by simp [chunkList]]
      rw [List.flatten_cons]
      rw [ih (t.drop (bs - 1)) (by simp only [List.length_drop]; simp at hl; omega)]
      simp [List.take_append_drop]

/-! ### execute_many helper lemmas -/

theorem execute_many_ok (fail : Nat → Bool) (st : DBState) (stmt : Stmt)
    (batch : List (List Val)) (s' : List Row) (n : Nat)
    (hne : batch ≠ []) (hf : fail st.callsDone = false)
    (happ : applyBatch stmt st.store (batch.map cleanTuple) = some (s', n)) :
    execute_many fail st stmt batch = .ok (⟨s', st.callsDone + 1⟩, n) := by
  simp [execute_many, hne, hf, happ]

theorem execute_many_error_state (fail : Nat → Bool) (st : DBState) (stmt : Stmt)
    (batch : List (List Val)) (e : DBState)
    (h : execute_many fail st stmt batch = .error e) :
    e.store = st.store ∧ e.callsDone = st.callsDone + 1 := by
  unfold execute_many at h
  split at h
  · exact Except.noConfusion h
  · split at h
    · cases h
      exact ⟨rfl, rfl⟩
    · split at h
      · cases h
        exact ⟨rfl, rfl⟩
      · exact Except.noConfusion h

/-! ### Batch application lemmas -/

theorem applyBatch_insert_fresh :
    ∀ (chunk : List Record) (store : List Row),
      (store.map Prod.fst ++ chunk.map recDate).Nodup →
      applyBatch .insertStmt store ((chunk.map insertTuple).map cleanTuple) =
        some (store ++ chunk.map insRow, chunk.length) := by
  intro chunk
  induction chunk with
  | nil =>
    intro store h
    simp [applyBatch]
  | cons r chunk ih =>
    intro store h
    have hd : recDate r ∉ store.map Prod.fst := by
      rw [List.nodup_append] at h
      intro hmem
      exact h.2.2 hmem (by simp)
    have h' : ((store ++ [insRow r]).map Prod.fst ++ chunk.map recDate).Nodup := by
      rw [List.map_append]
      rw [List.append_assoc]
      have : (List.map Prod.fst [insRow r] : List Nat) = [recDate r] := rfl
      rw [this]
      simp only [List.singleton_append]
      simpa using h
    have happ1 : applyTuple .insertStmt store (cleanTuple (insertTuple r)) =
        some (store ++ [insRow r], 1) := by
      simp only [applyTuple, cleanTuple_insertTuple, applyInsert, hd, if_false,
        Option.map_some', insRow]
    simp only [List.map_cons, applyBatch, happ1]
    rw [ih (store ++ [insRow r]) h']
    simp [List.append_assoc, Nat.add_comm]

theorem map_fst_overwrite (store : List Row) (d : Nat) (fs : List Val) :
    (store.map fun row => if row.1 = d then (row.1, fs) else row).map Prod.fst =
      store.map Prod.fst := by
  induction store with
  | nil => rfl
  | cons a t ih =>
    by_cases hd : a.1 = d <;> simp [hd, ih]

theorem applyBatch_update_all :
    ∀ (chunk : List Record) (store : List Row),
      (∀ r ∈ chunk, (store.map Prod.fst).count (recDate r) = 1) →
      ∃ store', applyBatch .updateStmt store ((chunk.map updateTuple).map cleanTuple) =
        some (store', chunk.length) ∧ store'.map Prod.fst = store.map Prod.fst := by
  intro chunk
  induction chunk with
  | nil =>
    intro store h
    exact ⟨store, by simp [applyBatch], rfl⟩
  | cons r chunk ih =>
    intro store h
    have hcount := h r (by simp)
    have hlast : (cleanTuple (updateTuple r)).getLast? = some (Val.vdate (recDate r)) := by
      rw [cleanTuple_updateTuple]
      simp
    have happ : applyUpdate store (cleanTuple (updateTuple r)) =
        some (store.map fun row =>
          if row.1 = recDate r then (row.1, (cleanTuple (updateTuple r)).dropLast) else row, 1) := by
      unfold applyUpdate
      simp only [hlast]
      rw [hcount]
    have hfst : (store.map fun row =>
        if row.1 = recDate r then (row.1, (cleanTuple (updateTuple r)).dropLast) else row).map
          Prod.fst = store.map Prod.fst :=
      map_fst_overwrite store (recDate r) _
    have h' : ∀ r' ∈ chunk, ((store.map fun row =>
        if row.1 = recDate r then (row.1, (cleanTuple (updateTuple r)).dropLast) else row).map
          Prod.fst).count (recDate r') = 1 := by
      intro r' hr'
      rw [hfst]
      exact h r' (by simp [hr'])
    obtain ⟨store2, happ2, hfst2⟩ := ih _ h'
    refine ⟨store2, ?_, by rw [hfst2, hfst]⟩
    simp only [List.map_cons, applyBatch, applyTuple, happ]
    rw [happ2]
    simp [Nat.add_comm]

/-! ### Batch-loop lemmas -/

theorem runBatches_insert_fresh (bs : Nat) :
    ∀ (n : Nat) (rs : List Record) (store : List Row) (c acc : Nat),
      rs.length ≤ n →
      (store.map Prod.fst ++ rs.map recDate).Nodup →
      ∃ c', runBatches (fun _ => false) .insertStmt ⟨store, c⟩ acc
          (chunkList bs (rs.map insertTuple)) =
        .ok (⟨store ++ rs.map insRow, c'⟩, acc + rs.length) := by
  intro n
  induction n with
  | zero =>
    intro rs store c acc hn h
    have : rs = [] := List.eq_nil_of_length_eq_zero (by omega)
    subst this
    exact ⟨c, by simp [chunkList, runBatches]⟩
  | succ n ih =>
    intro rs store c acc hn h
    cases rs with
    | nil => exact ⟨c, by simp [chunkList, runBatches]⟩
    | cons r rs' =>
      have hsplit : (r :: rs'.take (bs - 1)) ++ rs'.drop (bs - 1) = r :: rs' := by
        simp
      have hchunks : chunkList bs ((r :: rs').map insertTuple) =
          (r :: rs'.take (bs - 1)).map insertTuple ::
            chunkList bs ((rs'.drop (bs - 1)).map insertTuple) := by
        simp only [List.map_cons, chunkList, List.map_take, List.map_drop]
      have hfull : (store.map Prod.fst ++
          ((r :: rs'.take (bs - 1)).map recDate ++ (rs'.drop (bs - 1)).map recDate)).Nodup := by
        rw [← List.map_append, hsplit]
        exact h
      have hnd1 : (store.map Prod.fst ++ (r :: rs'.take (bs - 1)).map recDate).Nodup :=
        List.Nodup.sublist
          ((List.sublist_append_left _ _).append_left _) hfull
      have happ := applyBatch_insert_fresh (r :: rs'.take (bs - 1)) store hnd1
      have hexec : execute_many (fun _ => false) ⟨store, c⟩ .insertStmt
          ((r :: rs'.take (bs - 1)).map insertTuple) =
          .ok (⟨store ++ (r :: rs'.take (bs - 1)).map insRow, c + 1⟩,
            (r :: rs'.take (bs - 1)).length) :=
        execute_many_ok _ _ _ _ _ _ (by simp) rfl happ
      have hmapfst : ((r :: rs'.take (bs - 1)).map insRow).map Prod.fst =
          (r :: rs'.take (bs - 1)).map recDate := by
        rw [List.map_map]
        rfl
      have hnd2 : ((store ++ (r :: rs'.take (bs - 1)).map insRow).map Prod.fst ++
          (rs'.drop (bs - 1)).map recDate).Nodup := by
        rw [List.map_append, hmapfst, List.append_assoc]
        exact hfull
      obtain ⟨c', hrun⟩ := ih (rs'.drop (bs - 1))
        (store ++ (r :: rs'.take (bs - 1)).map insRow) (c + 1)
        (acc + (r :: rs'.take (bs - 1)).length)
        (by simp only [List.length_drop]; simp only [List.length_cons] at hn; omega)
        hnd2
      refine ⟨c', ?_⟩
      rw [hchunks]
      simp only [runBatches, hexec]
      have hstore : store ++ (r :: rs'.take (bs - 1)).map insRow ++
          (rs'.drop (bs - 1)).map insRow = store ++ (r :: rs').map insRow := by
        rw [List.append_assoc, ← List.map_append, hsplit]
      have hcnt : acc + (r :: rs'.take (bs - 1)).length + (rs'.drop (bs - 1)).length =
          acc + (r :: rs').length := by
        have := congrArg List.length hsplit
        simp only [List.length_append] at this
        omega
      rw [hstore, hcnt] at hrun
      exact hrun

theorem runBatches_update_all (bs : Nat) :
    ∀ (n : Nat) (rs : List Record) (store : List Row) (c acc : Nat),
      rs.length ≤ n →
      (∀ r ∈ rs, (store.map Prod.fst).count (recDate r) = 1) →
      ∃ store' c', runBatches (fun _ => false) .updateStmt ⟨store, c⟩ acc
          (chunkList bs (rs.map updateTuple)) =
        .ok (⟨store', c'⟩, acc + rs.length) ∧
        store'.map Prod.fst = store.map Prod.fst := by
  intro n
  induction n with
  | zero =>
    intro rs store c acc hn h
    have : rs = [] := List.eq_nil_of_length_eq_zero (by omega)
    subst this
    exact ⟨store, c, by simp [chunkList, runBatches], rfl⟩
  | succ n ih =>
    intro rs store c acc hn h
    cases rs with
    | nil => exact ⟨store, c, by simp [chunkList, runBatches], rfl⟩
    | cons r rs' =>
      have hsplit : (r :: rs'.take (bs - 1)) ++ rs'.drop (bs - 1) = r :: rs' := by
        simp
      have hchunks : chunkList bs ((r :: rs').map updateTuple) =
          (r :: rs'.take (bs - 1)).map updateTuple ::
            chunkList bs ((rs'.drop (bs - 1)).map updateTuple) := by
        simp only [List.map_cons, chunkList, List.map_take, List.map_drop]
      have hmem1 : ∀ x ∈ r :: rs'.take (bs - 1), x ∈ r :: rs' := by
        intro x hx
        rw [← hsplit]
        exact List.mem_append_left _ hx
      have hmem2 : ∀ x ∈ rs'.drop (bs - 1), x ∈ r :: rs' := by
        intro x hx
        rw [← hsplit]
        exact List.mem_append_right _ hx
      obtain ⟨store1, happ, hfst⟩ := applyBatch_update_all (r :: rs'.take (bs - 1)) store
        (fun x hx => h x (hmem1 x hx))
      have hexec : execute_many (fun _ => false) ⟨store, c⟩ .updateStmt
          ((r :: rs'.take (bs - 1)).map updateTuple) =
          .ok (⟨store1, c + 1⟩, (r :: rs'.take (bs - 1)).length) :=
        execute_many_ok _ _ _ _ _ _ (by simp) rfl happ
      obtain ⟨store2, c', hrun, hfst2⟩ := ih (rs'.drop (bs - 1)) store1 (c + 1)
        (acc + (r :: rs'.take (bs - 1)).length)
        (by simp only [List.length_drop]; simp only [List.length_cons] at hn; omega)
        (by intro x hx; rw [hfst]; exact h x (hmem2 x hx))
      refine ⟨store2, c', ?_, by rw [hfst2, hfst]⟩
      rw [hchunks]
      simp only [runBatches, hexec]
      have hcnt : acc + (r :: rs'.take (bs - 1)).length + (rs'.drop (bs - 1)).length =
          acc + (r :: rs').length := by
        have := congrArg List.length hsplit
        simp only [List.length_append] at this
        omega
      rw [hcnt] at hrun
      exact hrun

/-! ### Partition corollaries and reconciliation runs -/

theorem partition_none_existing (existing : Finset Nat) :
    ∀ recs : List Record, (∀ r ∈ recs, recDate r ∉ existing) →
      partitionRecords existing recs = (recs.map insertTuple, []) := by
  intro recs
  induction recs with
  | nil => intro h; rfl
  | cons r rs ih =>
    intro h
    have hr : recDate r ∉ existing := h r (by simp)
    simp [partitionRecords, hr, ih (fun x hx => h x (by simp [hx]))]

theorem partition_all_existing (existing : Finset Nat) :
    ∀ recs : List Record, (∀ r ∈ recs, recDate r ∈ existing) →
      partitionRecords existing recs = ([], recs.map updateTuple) := by
  intro recs
  induction recs with
  | nil => intro h; rfl
  | cons r rs ih =>
    intro h
    have hr : recDate r ∈ existing := h r (by simp)
    simp [partitionRecords, hr, ih (fun x hx => h x (by simp [hx]))]

theorem reconcile_first_call (data : List Record) (bs : Nat)
    (hnd : (data.map recDate).Nodup) :
    ∃ c' : Nat, insert_ibovespa_data (fun _ => false) ⟨[], 0⟩ data bs =
      .ok (⟨data.map insRow, c'⟩, data.length, 0) := by
  cases data with
  | nil => exact ⟨0, rfl⟩
  | cons r rs =>
    have hpart : partitionRecords (storeDates ([] : List Row)) (r :: rs) =
        ((r :: rs).map insertTuple, []) := by
      apply partition_none_existing
      intro x hx
      simp [storeDates]
    obtain ⟨c', hrun⟩ := runBatches_insert_fresh bs (r :: rs).length (r :: rs) [] 0 0
      le_rfl (by simpa using hnd)
    rw [List.nil_append, Nat.zero_add] at hrun
    refine ⟨c', ?_⟩
    show insert_ibovespa_data (fun _ => false) ⟨[], 0⟩ (r :: rs) bs =
      .ok (⟨(r :: rs).map insRow, c'⟩, (r :: rs).length, 0)
    unfold insert_ibovespa_data
    rw [if_neg (by simp)]
    rw [hpart]
    simp only [runBatches, chunkList, hrun]

/-- C2: reconciling the same full record set (of distinct dates) twice,
starting from an empty store, succeeds both times: the first call
inserts every record, the second routes every record to update and
returns inserted = 0 and updated = N (so the returned total is N), with
no duplicate rows created — the final store still holds N rows with
pairwise distinct dates — and no duplicate-key error raised. -/
theorem reconcile_idempotent (data : List Record) (bs : Nat) (hbs : 0 < bs)
    (hnd : (data.map recDate).Nodup) :
    ∃ st1 st2 : DBState,
      insert_ibovespa_data (fun _ => false) ⟨[], 0⟩ data bs = .ok (st1, data.length, 0) ∧
      insert_ibovespa_data (fun _ => false) st1 data bs = .ok (st2, 0, data.length) ∧
      st2.store.length = data.length ∧
      (st2.store.map Prod.fst).Nodup := by
  obtain ⟨c1, h1⟩ := reconcile_first_call data bs hnd
  have hmapfst : (data.map insRow).map Prod.fst = data.map recDate := by
    rw [List.map_map]
    rfl
  cases data with
  | nil => exact ⟨⟨[], 0⟩, ⟨[], 0⟩, rfl, rfl, rfl, List.nodup_nil⟩
  | cons r rs =>
    refine ⟨⟨(r :: rs).map insRow, c1⟩, ?_⟩
    have hpart2 : partitionRecords (storeDates ((r :: rs).map insRow)) (r :: rs) =
        ([], (r :: rs).map updateTuple) := by
      apply partition_all_existing
      intro x hx
      rw [storeDates, hmapfst, List.mem_toFinset]
      exact List.mem_map_of_mem recDate hx
    have hcount : ∀ x ∈ r :: rs,
        (((r :: rs).map insRow).map Prod.fst).count (recDate x) = 1 := by
      intro x hx
      rw [hmapfst]
      exact List.count_eq_one_of_mem hnd (List.mem_map_of_mem recDate hx)
    obtain ⟨store2, c2, hrun2, hfst2⟩ := runBatches_update_all bs (r :: rs).length
      (r :: rs) ((r :: rs).map insRow) c1 0 le_rfl hcount
    rw [Nat.zero_add] at hrun2
    refine ⟨⟨store2, c2⟩, h1, ?_, ?_, ?_⟩
    · unfold insert_ibovespa_data
      rw [if_neg (by simp)]
      rw [hpart2]
      simp only [chunkList, runBatches, hrun2]
    · have := congrArg List.length hfst2
      simp only [List.length_map] at this
      simpa using this
    · show (store2.map Prod.fst).Nodup
      rw [hfst2, hmapfst]
      exact hnd

theorem reconcile_idempotent_witness :
    0 < 2 ∧
    ([mkNullRec 10, mkNullRec 11, mkNullRec 12].map recDate).Nodup ∧
    ∃ st1 st2 : DBState,
      insert_ibovespa_data (fun _ => false) ⟨[], 0⟩
        [mkNullRec 10, mkNullRec 11, mkNullRec 12] 2 = .ok (st1, 3, 0) ∧
      insert_ibovespa_data (fun _ => false) st1
        [mkNullRec 10, mkNullRec 11, mkNullRec 12] 2 = .ok (st2, 0, 3) ∧
      st2.store.length = 3 ∧
      (st2.store.map Prod.fst).Nodup := by
  refine ⟨by decide, by decide, ?_⟩
  exact reconcile_idempotent [mkNullRec 10, mkNullRec 11, mkNullRec 12] 2
    (by decide) (by decide)

/-- C4: the insert queue and the update queue are chunked independently
by the same slicing loop, which splits a queue into consecutive
non-empty batches of at most the configured batch size whose
concatenation, in order, is the whole queue; with batch size 200 and a
queue of 450 tuples exactly 3 batches of sizes 200, 200 and 50 are
produced, and for 450 new records (distinct fresh dates against an
empty store) the reconciliation returns total inserted = 450 when all
batches succeed. -/
theorem batch_chunking (bs : Nat) (hbs : 0 < bs) (l : List (List Val)) :
    (∀ c ∈ chunkList bs l, 0 < c.length ∧ c.length ≤ bs) ∧
    (chunkList bs l).flatten = l ∧
    (bs = 200 → l.length = 450 → (chunkList bs l).map List.length = [200, 200, 50]) ∧
    (∀ data : List Record, (data.map recDate).Nodup → data.length = 450 →
      ∃ st1 : DBState, insert_ibovespa_data (fun _ => false) ⟨[], 0⟩ data 200 =
        .ok (st1, 450, 0)) := by
  refine ⟨chunkList_sizes bs hbs l.length l le_rfl,
    chunkList_flatten bs l.length l le_rfl, ?_, ?_⟩
  · rintro rfl h450
    have hne1 : l ≠ [] := by intro h; rw [h] at h450; simp at h450
    have e1 := chunkList_of_ne_nil 200 (by norm_num) l hne1
    have hlen2 : (l.drop 200).length = 250 := by simp [h450]
    have hne2 : l.drop 200 ≠ [] := by intro h; rw [h] at hlen2; simp at hlen2
    have e2 := chunkList_of_ne_nil 200 (by norm_num) (l.drop 200) hne2
    have hlen3 : ((l.drop 200).drop 200).length = 50 := by simp [h450]
    have hne3 : (l.drop 200).drop 200 ≠ [] := by intro h; rw [h] at hlen3; simp at hlen3
    have e3 := chunkList_of_ne_nil 200 (by norm_num) ((l.drop 200).drop 200) hne3
    have hlen4 : ((l.drop 200).drop 200).drop 200 = [] := by
      apply List.eq_nil_of_length_eq_zero
      simp [h450]
    rw [e1, e2, e3, hlen4]
    simp only [chunkList]
    simp [List.length_take, List.length_drop, h450]
  · intro data hnd h450
    obtain ⟨c', h⟩ := reconcile_first_call data 200 hnd
    rw [h450] at h
    exact ⟨_, h⟩

theorem batch_chunking_witness :
    0 < 200 ∧
    (chunkList 200 (List.replicate 450 ([] : List Val))).flatten =
      List.replicate 450 ([] : List Val) := by
  refine ⟨by norm_num, ?_⟩
  exact (batch_chunking 200 (by norm_num) (List.replicate 450 [])).2.1

/-- C3: partial-failure semantics of reconciliation.  If the insert
phase succeeds and the update queue is chunked into three batches of
which the first succeeds and the second fails at the driver, then the
whole reconciliation call returns that error (it propagates out), the
failed batch's transaction is rolled back and the third batch is never
applied — the state carried by the error is exactly the state left by
the previously committed batches — and the error's call index
identifies the failed (second) batch.  The call is not atomic
end-to-end. -/
theorem reconcile_batch_failure (fail : Nat → Bool) (st : DBState) (data : List Record)
    (bs : Nat) (ins upds : List (List Val)) (st1 : DBState) (n1 : Nat)
    (u1 u2 u3 : List (List Val)) (st2 : DBState) (m1 : Nat) (e2 : DBState)
    (hne : data ≠ [])
    (hpart : partitionRecords (storeDates st.store) data = (ins, upds))
    (hins : runBatches fail .insertStmt st 0 (chunkList bs ins) = .ok (st1, n1))
    (hupd : chunkList bs upds = [u1, u2, u3])
    (h1 : execute_many fail st1 .updateStmt u1 = .ok (st2, m1))
    (h2 : execute_many fail st2 .updateStmt u2 = .error e2) :
    insert_ibovespa_data fail st data bs = .error e2 ∧
    e2.store = st2.store ∧ e2.callsDone = st2.callsDone + 1 := by
  have herr := execute_many_error_state fail st2 .updateStmt u2 e2 h2
  refine ⟨?_, herr.1, herr.2⟩
  unfold insert_ibovespa_data
  rw [if_neg (by simp [hne])]
  rw [hpart]
  simp only [hins]
  rw [hupd]
  simp only [runBatches, h1, h2]

theorem reconcile_batch_failure_witness :
    ([mkNullRec 0, mkNullRec 1, mkNullRec 2] : List Record) ≠ [] ∧
    insert_ibovespa_data (fun n => n == 1)
        (DBState.mk [(0, []), (1, []), (2, [])] 0)
        [mkNullRec 0, mkNullRec 1, mkNullRec 2] 1 =
      .error (DBState.mk
        [(0, List.replicate 14 Val.vnull), (1, []), (2, [])] 2) := by
  refine ⟨by decide, ?_⟩
  exact (reconcile_batch_failure (fun n => n == 1)
    (DBState.mk [(0, []), (1, []), (2, [])] 0)
    [mkNullRec 0, mkNullRec 1, mkNullRec 2] 1
    [] [updateTuple (mkNullRec 0), updateTuple (mkNullRec 1), updateTuple (mkNullRec 2)]
    (DBState.mk [(0, []), (1, []), (2, [])] 0) 0
    [updateTuple (mkNullRec 0)] [updateTuple (mkNullRec 1)] [updateTuple (mkNullRec 2)]
    (DBState.mk [(0, List.replicate 14 Val.vnull), (1, []), (2, [])] 1) 1
    (DBState.mk [(0, List.replicate 14 Val.vnull), (1, []), (2, [])] 2)
    (by decide) (by decide) (by simp [chunkList, runBatches])
    (by simp [chunkList]) rfl rfl).1
